import Mathlib

/-!
Verification of the BCE-MOEA/D generation-advance algorithm of
`config_files/moo_f1_c1_t3/moo_algs/bce_moead.py`, shallow-embedded over
rational arithmetic.  numpy float arrays are modelled as lists of rationals,
`np.inf` as the `none` value of an `Option`, exceptions (IndexError and
friends) as `Option`-valued functions, and every source of randomness or
external collaborator (crossover, mutation, evaluation, duplicate
elimination, the real square root inside Euclidean `cdist`) as an explicit
function parameter, constrained by its documented contract where a theorem
needs it.
-/

namespace BCE

/-- An objective or decision vector (a numpy 1-d float array, over ℚ). -/
abbrev Vec := List ℚ

/-- A pymoo individual: decision vector `X` and objective vector `F`. -/
structure Ind where
  X : Vec
  F : Vec
deriving DecidableEq

instance : Inhabited Ind := ⟨⟨[], []⟩⟩

/-- A pymoo `Population`: an ordered, index-addressable list of individuals. -/
abbrev Pop := List Ind

/-- `a` strictly Pareto-dominates `b` (minimisation): every component is `≤`
and at least one is `<`.  This is the documented contract of the external
pymoo `Dominator` collaborator. -/
def dominates (a b : Vec) : Bool :=
  ((a.zip b).all fun p => decide (p.1 ≤ p.2)) &&
    ((a.zip b).any fun p => decide (p.1 < p.2))

/-- `Dominator.get_relation`: `1` when `a` dominates `b`, `-1` when `b`
dominates `a`, `0` otherwise (external collaborator, contract of spec §6). -/
def get_relation (a b : Vec) : Int :=
  if dominates a b then 1 else if dominates b a then -1 else 0

/-- `update_PCpop(pc_pop, off)`, bce_moead.py lines 112-143.  The python
`for i in range(n)` loop examines only `i = 0`, because each of its three
branches ends in `break`, `return` or `break`: when the offspring dominates
member 0 that one member is deleted and the offspring merged at the end;
when member 0 dominates the offspring the archive is returned unchanged;
otherwise (nondominated) the offspring is merged with nothing deleted.
An empty archive skips the loop and merges the offspring. -/
def update_PCpop (pc_pop : Pop) (off : Ind) : Pop :=
  match pc_pop with
  | [] => [off]
  | x :: rest =>
    if get_relation off.F x.F = 1 then rest ++ [off]
    else if get_relation off.F x.F = -1 then x :: rest
    else (x :: rest) ++ [off]

/-! ## C1 -/

/-- C1 counterexample.  The claim states that an offspring whose objective
vector `(0,0)` strictly dominates every member of the non-empty PC archive
leaves the archive as exactly the single new point.  On the two-member
archive `[(1,5), (2,4)]` the offspring `(0,0)` dominates both members, yet
`update_PCpop` deletes only the first member (the scan stops at the first
dominance relation), so the result `[(2,4), (0,0)]` is not the singleton
`[(0,0)]`. -/
theorem C1_counterexample :
    (dominates [0, 0] [1, 5] = true ∧ dominates [0, 0] [2, 4] = true) ∧
      update_PCpop [⟨[1, 5], [1, 5]⟩, ⟨[2, 4], [2, 4]⟩] ⟨[0, 0], [0, 0]⟩ ≠
        [⟨[0, 0], [0, 0]⟩] := by
  decide

/-- C1 amended: when the candidate strictly dominates every member of the
non-empty PC archive, `update_PCpop` removes only the *first* archive member
(the scan stops at the first dominance relation) and appends the candidate:
the result is the original archive without its head, with the candidate
appended; it equals the single new point exactly when the archive had one
member. -/
theorem C1_amended (pc : Pop) (off : Ind) (hne : pc ≠ [])
    (hdom : ∀ m ∈ pc, dominates off.F m.F = true) :
    update_PCpop pc off = pc.tail ++ [off] ∧
      (pc.length = 1 → update_PCpop pc off = [off]) := by
  match pc, hne with
  | x :: rest, _ =>
    have hx : dominates off.F x.F = true := hdom x (List.mem_cons_self x rest)
    have h1 : get_relation off.F x.F = 1 := by
      simp [get_relation, hx]
    constructor
    · simp [update_PCpop, h1]
    · intro hlen
      have : rest = [] := by
        cases rest with
        | nil => rfl
        | cons y ys => simp at hlen
      subst this
      simp [update_PCpop, h1]

/-- Witness for `C1_amended` at a concrete input: a singleton archive whose
member is dominated by the candidate collapses to the single new point. -/
theorem C1_witness :
    update_PCpop [⟨[3, 3], [3, 3]⟩] ⟨[1, 1], [1, 1]⟩ = [⟨[1, 1], [1, 1]⟩] := by
  exact (C1_amended [⟨[3, 3], [3, 3]⟩] ⟨[1, 1], [1, 1]⟩ (by decide)
    (by decide)).2 (by decide)

/-! ## Extended rationals: numpy arrays containing `np.inf` -/

/-- `np.inf`-extended rationals: `none` plays infinity. -/
abbrev Qinf := Option ℚ

/-- `≤` on extended rationals (everything is `≤ inf`). -/
def qle : Qinf → Qinf → Bool
  | _, none => true
  | none, some _ => false
  | some a, some b => decide (a ≤ b)

/-- Addition on extended rationals (`inf + x = inf`). -/
def qadd : Qinf → Qinf → Qinf
  | some a, some b => some (a + b)
  | _, _ => none

/-- Sum of a list of extended rationals. -/
def qsum (l : List Qinf) : Qinf := l.foldr qadd (some 0)

/-- numpy `np.mean` of a list: infinite as soon as one entry is infinite. -/
def qmean (l : List Qinf) : Qinf := (qsum l).map fun q => q / (l.length : ℚ)

/-- Insertion step of ascending sort on extended rationals. -/
def qinsert (x : Qinf) : List Qinf → List Qinf
  | [] => [x]
  | y :: ys => if qle x y then x :: y :: ys else y :: qinsert x ys

/-- Ascending `np.sort` of one matrix row; infinities end up at the end. -/
def qsort : List Qinf → List Qinf
  | [] => []
  | x :: xs => qinsert x (qsort xs)

/-- numpy 1-d indexing: a non-negative index reads directly, a negative index
`j` with `-len ≤ j` wraps to `len + j`, anything else is an IndexError
(`none`). -/
def npGet (l : List Qinf) (j : ℤ) : Option Qinf :=
  if 0 ≤ j ∧ j < (l.length : ℤ) then l.get? j.toNat
  else if -(l.length : ℤ) ≤ j ∧ j < 0 then l.get? ((l.length : ℤ) + j).toNat
  else none

/-- The `while ave_dist[j] == np.inf: j -= 1` loop of `determine_radius`
(lines 103-107): scan downward from `j` for the first finite average, with
numpy wraparound for negative indices; `none` models the IndexError raised
once `j` passes below `-len`.  The fuel argument is always supplied large
enough that it never runs out before the scan returns or raises. -/
def radiusScan (ave : List Qinf) : ℤ → ℕ → Option ℚ
  | _, 0 => none
  | j, fuel + 1 =>
    match npGet ave j with
    | none => none
    | some none => radiusScan ave (j - 1) fuel
    | some (some q) => some q

/-- `ave_dist` of `determine_radius` (lines 98-101): sort each row of the
distance matrix ascending, keep the first `size` columns, and average each
column across rows. -/
def aveDist (d : List (List Qinf)) (size : ℕ) : List Qinf :=
  (List.range size).map fun j =>
    qmean ((d.map fun row => (qsort row).take size).map fun row => row.getD j none)

/-- `determine_radius(d, pc_size, pc_capacity)`, lines 89-109: with
`k_closest = 3` and `size = min 3 pc_size`, build the per-rank averages of
the row-sorted distances and scan down from rank `size - 1` for the first
finite average.  The scan makes at most `2 * size + 1` accesses before it
either returns or raises, so fuel `2 * size + 2` is never exhausted. -/
def determine_radius (d : List (List Qinf)) (pc_size pc_capacity : ℕ) :
    Option ℚ :=
  let size := min 3 pc_size
  radiusScan (aveDist d size) ((size : ℤ) - 1) (2 * size + 2)

/-- Reading a valid non-negative index through numpy indexing. -/
theorem npGet_nat (l : List Qinf) (n : ℕ) (h : n < l.length) :
    npGet l (n : ℤ) = some (l.getD n none) := by
  have h1 : (0 : ℤ) ≤ (n : ℤ) ∧ (n : ℤ) < (l.length : ℤ) := by
    exact ⟨Int.natCast_nonneg n, by exact_mod_cast h⟩
  simp only [npGet, h1, and_self, if_true, Int.toNat_natCast]
  rw [List.getD_eq_getElem?_getD, List.get?_eq_getElem?]
  cases hg : l[n]? with
  | none => rw [List.getElem?_eq_none_iff] at hg; omega
  | some v => simp [hg]

/-- The downward scan, started at an in-range rank with enough fuel, finds
the largest rank whose average is finite, provided one exists at or below
the start. -/
theorem radiusScan_finds (ave : List Qinf) :
    ∀ (jn : ℕ) (fuel : ℕ), jn < ave.length → jn + 1 ≤ fuel →
      (∃ k, k ≤ jn ∧ ave.getD k none ≠ none) →
      ∃ k q, k ≤ jn ∧ (∀ m, k < m → m ≤ jn → ave.getD m none = none) ∧
        ave.getD k none = some q ∧ radiusScan ave (jn : ℤ) fuel = some q := by
  intro jn
  induction jn with
  | zero =>
    intro fuel hlen hfuel hex
    obtain ⟨k, hk, hfin⟩ := hex
    interval_cases k
    obtain ⟨q, hq⟩ := Option.ne_none_iff_exists.mp hfin
    match fuel, hfuel with
    | fuel + 1, _ =>
      refine ⟨0, q, le_refl 0, by omega, hq.symm, ?_⟩
      simp only [radiusScan, Int.natCast_zero]
      rw [show ((0 : ℤ)) = ((0 : ℕ) : ℤ) by norm_num, npGet_nat ave 0 hlen,
        ← hq]
  | succ n ih =>
    intro fuel hlen hfuel hex
    match fuel, hfuel with
    | fuel + 1, hfuel =>
      cases htop : ave.getD (n + 1) none with
      | some q =>
        refine ⟨n + 1, q, le_refl _, by omega, htop, ?_⟩
        simp only [radiusScan]
        rw [npGet_nat ave (n + 1) hlen, htop]
      | none =>
        have hex2 : ∃ k, k ≤ n ∧ ave.getD k none ≠ none := by
          obtain ⟨k, hk, hfin⟩ := hex
          refine ⟨k, ?_, hfin⟩
          rcases Nat.lt_or_ge k (n + 1) with h | h
          · omega
          · exfalso; have : k = n + 1 := by omega
            rw [this] at hfin; exact hfin htop
        obtain ⟨k, q, hk, hmax, hfin, hscan⟩ :=
          ih fuel (by omega) (by omega) hex2
        refine ⟨k, q, by omega, ?_, hfin, ?_⟩
        · intro m hm1 hm2
          rcases Nat.lt_or_ge m (n + 1) with h | h
          · exact hmax m hm1 (by omega)
          · have : m = n + 1 := by omega
            rw [this]; exact htop
        · simp only [radiusScan]
          rw [npGet_nat ave (n + 1) hlen, htop]
          show radiusScan ave (((n + 1 : ℕ) : ℤ) - 1) fuel = some q
          rw [show (((n + 1 : ℕ) : ℤ) - 1) = (n : ℤ) by push_cast; ring]
          exact hscan

/-- The per-rank average list has exactly `size` entries. -/
theorem aveDist_length (d : List (List Qinf)) (size : ℕ) :
    (aveDist d size).length = size := by
  simp [aveDist]

/-! ## C8 -/

/-- C8: whenever at least one of the `min 3 pc_size` per-rank averages of
the row-sorted distance matrix is finite, `determine_radius` terminates
without raising and returns the average at the largest finite rank: all
ranks above the returned one are infinite, and the scan never leaves the
rank range `0 .. min 3 pc_size - 1` (the rank it returns is inside that
range and it only inspected ranks above it). -/
theorem C8_determine_radius (d : List (List Qinf)) (pc_size pc_capacity : ℕ)
    (hfin : ∃ k, k < min 3 pc_size ∧
      (aveDist d (min 3 pc_size)).getD k none ≠ none) :
    ∃ k q, k < min 3 pc_size ∧
      (∀ m, k < m → m < min 3 pc_size →
        (aveDist d (min 3 pc_size)).getD m none = none) ∧
      (aveDist d (min 3 pc_size)).getD k none = some q ∧
      determine_radius d pc_size pc_capacity = some q := by
  obtain ⟨k0, hk0, hfin0⟩ := hfin
  have hsz : 1 ≤ min 3 pc_size := by omega
  have hlen : min 3 pc_size - 1 < (aveDist d (min 3 pc_size)).length := by
    rw [aveDist_length]; omega
  obtain ⟨k, q, hk, hmax, hfq, hscan⟩ :=
    radiusScan_finds (aveDist d (min 3 pc_size)) (min 3 pc_size - 1)
      (2 * min 3 pc_size + 2) hlen (by omega) ⟨k0, by omega, hfin0⟩
  refine ⟨k, q, by omega, ?_, hfq, ?_⟩
  · intro m hm1 hm2; exact hmax m hm1 (by omega)
  · simp only [determine_radius]
    rw [show (((min 3 pc_size : ℕ) : ℤ) - 1) = ((min 3 pc_size - 1 : ℕ) : ℤ)
      by omega]
    exact hscan

/-- Witness for `C8_determine_radius`: the 2-point distance matrix with
finite off-diagonal distance 1 and infinite diagonal. -/
theorem C8_witness :
    ∃ k q, k < min 3 2 ∧
      (∀ m, k < m → m < min 3 2 →
        (aveDist [[none, some 1], [some 1, none]] (min 3 2)).getD m none =
          none) ∧
      (aveDist [[none, some 1], [some 1, none]] (min 3 2)).getD k none =
        some q ∧
      determine_radius [[none, some 1], [some 1, none]] 2 5 = some q := by
  refine C8_determine_radius [[none, some 1], [some 1, none]] 2 5 ⟨0, ?_, ?_⟩
  · norm_num
  · simp [aveDist, qsort, qinsert, qle, qsum, qadd, qmean]

/-! ## Normalisation -/

/-- Maximum of a list of rationals (`np.max`; the empty case never arises in
spec-relevant uses, numpy raises there). -/
def qmax : List ℚ → ℚ
  | [] => 0
  | x :: xs => xs.foldl max x

/-- Minimum of a list of rationals (`np.min`). -/
def qmin : List ℚ → ℚ
  | [] => 0
  | x :: xs => xs.foldl min x

/-- Column `i` of an objective matrix. -/
def column (m : List Vec) (i : ℕ) : List ℚ := m.map fun r => r.getD i 0

/-- Map a function of the position and the entry over a list, starting the
position count at `s`. -/
def mapWithIdx (f : ℕ → ℚ → ℚ) : ℕ → List ℚ → List ℚ
  | _, [] => []
  | s, x :: xs => f s x :: mapWithIdx f (s + 1) xs

/-- `normalize_pop(pop)`, lines 37-55: rescale each objective column to
[0,1] by that column's min and max over the population; a degenerate column
(max = min) is zero-filled.  The loop touches columns `0 .. nobj - 1` only,
`nobj` being the width of the objective matrix. -/
def normalize_pop (pop : Pop) : Pop :=
  let m := pop.map (·.F)
  let nobj := (m.getD 0 []).length
  pop.map fun ind =>
    { ind with
      F := mapWithIdx (fun i x =>
        if i < nobj then
          if qmax (column m i) = qmin (column m i) then 0
          else (x - qmin (column m i)) / (qmax (column m i) - qmin (column m i))
        else x) 0 ind.F }

/-- `normalize_bothpop(pc_pop, npc_pop)`, lines 58-86: per-column min and
max are computed from the PC objective matrix only; a non-degenerate column
is affinely rescaled in both populations; a degenerate column (PC max = PC
min) is zero-filled in PC but only shifted by `-fmin` in NPC. -/
def normalize_bothpop (pc_pop npc_pop : Pop) : Pop × Pop :=
  let m := pc_pop.map (·.F)
  let nobj := (m.getD 0 []).length
  (pc_pop.map fun ind =>
    { ind with
      F := mapWithIdx (fun i x =>
        if i < nobj then
          if qmax (column m i) = qmin (column m i) then 0
          else (x - qmin (column m i)) / (qmax (column m i) - qmin (column m i))
        else x) 0 ind.F },
   npc_pop.map fun ind =>
    { ind with
      F := mapWithIdx (fun i x =>
        if i < nobj then
          if qmax (column m i) = qmin (column m i) then x - qmin (column m i)
          else (x - qmin (column m i)) / (qmax (column m i) - qmin (column m i))
        else x) 0 ind.F })

/-- `getD` through `List.map`, inside the length. -/
theorem getD_map_of_lt {α β : Type} (f : α → β) (l : List α) (k : ℕ)
    (h : k < l.length) (d : β) (d' : α) :
    (l.map f).getD k d = f (l.getD k d') := by
  rw [List.getD_eq_getElem?_getD, List.getD_eq_getElem?_getD,
    List.getElem?_map]
  cases hg : l[k]? with
  | none => rw [List.getElem?_eq_none_iff] at hg; omega
  | some v => simp [hg]

/-- `getD` through `mapWithIdx`, inside the length. -/
theorem mapWithIdx_getD (f : ℕ → ℚ → ℚ) :
    ∀ (l : List ℚ) (s j : ℕ), j < l.length →
      (mapWithIdx f s l).getD j 0 = f (s + j) (l.getD j 0) := by
  intro l
  induction l with
  | nil => intro s j h; simp at h
  | cons x xs ih =>
    intro s j h
    cases j with
    | zero => simp [mapWithIdx]
    | succ n =>
      have h2 := ih (s + 1) n (by simpa using Nat.lt_of_succ_lt_succ h)
      simp only [mapWithIdx, List.getD_cons_succ]
      rw [h2, show s + 1 + n = s + (n + 1) by omega]

/-! ## C7 -/

/-- C7 counterexample.  The claim states that for a degenerate column
(PC max = PC min) the zero-fill policy sets the column to 0 for every member
of *both* populations.  With `pc = [(5)]` and `npc = [(7)]` the single
column is degenerate (max = min = 5), yet `normalize_bothpop` maps the NPC
entry to `7 - 5 = 2`, not 0: NPC is only shifted by the PC minimum. -/
theorem C7_counterexample :
    qmax (column [[(5 : ℚ)]] 0) = qmin (column [[(5 : ℚ)]] 0) ∧
    ([⟨[0], [5]⟩] : Pop).map (·.F) = [[(5 : ℚ)]] ∧
    (normalize_bothpop [⟨[0], [5]⟩] [⟨[0], [7]⟩]).2 = [⟨[0], [2]⟩] ∧
    (2 : ℚ) ≠ 0 := by
  refine ⟨by norm_num [qmax, qmin, column], by simp, ?_, by norm_num⟩
  simp only [normalize_bothpop, mapWithIdx, column, List.map_cons,
    List.map_nil]
  norm_num [qmax, qmin]

/-- C7 amended: `normalize_bothpop` computes each column's min and max from
the PC population only; a non-degenerate column is rescaled by `(x - min) /
(max - min)` in both populations; a degenerate column (PC max = PC min) is
set to 0 for every PC member but is only shifted by `- min` for NPC members
(an NPC value equal to the PC constant maps to 0, others keep their
offset). -/
theorem C7_amended (pc_pop npc_pop : Pop) :
    (∀ k j, k < pc_pop.length → j < (pc_pop.getD k default).F.length →
      j < ((pc_pop.map (·.F)).getD 0 []).length →
      ((normalize_bothpop pc_pop npc_pop).1.getD k default).F.getD j 0 =
        (if qmax (column (pc_pop.map (·.F)) j) =
            qmin (column (pc_pop.map (·.F)) j) then 0
         else ((pc_pop.getD k default).F.getD j 0 -
            qmin (column (pc_pop.map (·.F)) j)) /
          (qmax (column (pc_pop.map (·.F)) j) -
            qmin (column (pc_pop.map (·.F)) j)))) ∧
    (∀ k j, k < npc_pop.length → j < (npc_pop.getD k default).F.length →
      j < ((pc_pop.map (·.F)).getD 0 []).length →
      ((normalize_bothpop pc_pop npc_pop).2.getD k default).F.getD j 0 =
        (if qmax (column (pc_pop.map (·.F)) j) =
            qmin (column (pc_pop.map (·.F)) j) then
          (npc_pop.getD k default).F.getD j 0 -
            qmin (column (pc_pop.map (·.F)) j)
         else ((npc_pop.getD k default).F.getD j 0 -
            qmin (column (pc_pop.map (·.F)) j)) /
          (qmax (column (pc_pop.map (·.F)) j) -
            qmin (column (pc_pop.map (·.F)) j)))) := by
  constructor
  · intro k j hk hj hjn
    simp only [normalize_bothpop]
    rw [getD_map_of_lt _ pc_pop k hk _ default]
    simp only
    rw [mapWithIdx_getD _ _ 0 j hj]
    simp only [Nat.zero_add, if_pos hjn]
  · intro k j hk hj hjn
    simp only [normalize_bothpop]
    rw [getD_map_of_lt _ npc_pop k hk _ default]
    simp only
    rw [mapWithIdx_getD _ _ 0 j hj]
    simp only [Nat.zero_add, if_pos hjn]

/-- Witness for `C7_amended`: PC column `{0, 2}` is non-degenerate, and the
NPC value 1 is rescaled by PC's min 0 and max 2 to `1/2`. -/
theorem C7_witness :
    ((normalize_bothpop [⟨[0], [0]⟩, ⟨[0], [2]⟩]
        [⟨[1], [1]⟩]).2.getD 0 default).F.getD 0 0 = 1 / 2 := by
  have h := (C7_amended [⟨[0], [0]⟩, ⟨[0], [2]⟩] [⟨[1], [1]⟩]).2 0 0
    (by norm_num) (by norm_num) (by norm_num)
  rw [h]
  norm_num [column, qmax, qmin]

/-! ## Ideal point -/

/-- The ideal-point update of lines 439-441 and 467-469:
`np.min(np.vstack([ideal, F]), axis=0)` with the single offspring objective
row `F` is the componentwise minimum. -/
def updateIdeal (ideal offF : Vec) : Vec := ideal.zipWith min offF

/-- The ideal-point initialisation of line 321:
`np.min(pop.get("F"), axis=0)`, the componentwise minimum over the rows of
the initial objective matrix. -/
def initIdeal (F : List Vec) : Vec :=
  match F with
  | [] => []
  | r :: rs => rs.foldl (fun acc row => acc.zipWith min row) r

/-- `getD` through `zipWith min`, inside both lengths. -/
theorem zipWith_min_getD (a b : Vec) (k : ℕ) (ha : k < a.length)
    (hb : k < b.length) :
    (a.zipWith min b).getD k 0 = min (a.getD k 0) (b.getD k 0) := by
  have hl : k < (a.zipWith min b).length := by
    rw [List.length_zipWith]; omega
  rw [List.getD_eq_getElem a 0 ha, List.getD_eq_getElem b 0 hb,
    List.getD_eq_getElem _ 0 hl]
  exact List.getElem_zipWith

/-- The fold of componentwise minima: length, lower-bound and attainment. -/
theorem foldl_zip_min (m : ℕ) :
    ∀ (rs : List Vec) (r : Vec), r.length = m →
      (∀ row ∈ rs, row.length = m) → ∀ k, k < m →
      (rs.foldl (fun acc row => acc.zipWith min row) r).length = m ∧
      ((rs.foldl (fun acc row => acc.zipWith min row) r).getD k 0 ≤
          r.getD k 0 ∧
        ∀ row ∈ rs,
          (rs.foldl (fun acc row => acc.zipWith min row) r).getD k 0 ≤
            row.getD k 0) ∧
      ((rs.foldl (fun acc row => acc.zipWith min row) r).getD k 0 =
          r.getD k 0 ∨
        ∃ row ∈ rs,
          (rs.foldl (fun acc row => acc.zipWith min row) r).getD k 0 =
            row.getD k 0) := by
  intro rs
  induction rs with
  | nil =>
    intro r hr _ k hk
    exact ⟨hr, ⟨le_refl _, by simp⟩, Or.inl rfl⟩
  | cons x rest ih =>
    intro r hr hrs k hk
    have hx : x.length = m := hrs x (by simp)
    have hacc : (r.zipWith min x).length = m := by
      rw [List.length_zipWith]; omega
    have hrest : ∀ y ∈ rest, y.length = m := fun y hy =>
      hrs y (List.mem_cons_of_mem _ hy)
    obtain ⟨hlen, ⟨hle, hall⟩, hatt⟩ := ih (r.zipWith min x) hacc hrest k hk
    have hmin : (r.zipWith min x).getD k 0 =
        min (r.getD k 0) (x.getD k 0) :=
      zipWith_min_getD r x k (by omega) (by omega)
    simp only [List.foldl_cons]
    refine ⟨hlen, ⟨?_, ?_⟩, ?_⟩
    · exact le_trans hle (by rw [hmin]; exact min_le_left _ _)
    · intro y hy
      rcases List.mem_cons.mp hy with h | h
      · subst h
        exact le_trans hle (by rw [hmin]; exact min_le_right _ _)
      · exact hall y h
    · rcases hatt with h | ⟨y, hy, hye⟩
      · rw [hmin] at h
        rcases min_choice (r.getD k 0) (x.getD k 0) with hc | hc
        · exact Or.inl (h.trans hc)
        · exact Or.inr ⟨x, by simp, h.trans hc⟩
      · exact Or.inr ⟨y, List.mem_cons_of_mem _ hy, hye⟩

/-! ## C9 -/

/-- C9: each ideal-point component is non-increasing over the whole run:
the initialisation is the componentwise minimum of the initial objective
matrix (it is a lower bound of every row and is attained), a single update
is `≤` the old value componentwise, and any fold of updates over a sequence
of offspring objective vectors (the shape of a whole run of generations)
stays `≤` the starting value componentwise. -/
theorem C9_ideal_monotone :
    (∀ (ideal offF : Vec) (k : ℕ), k < ideal.length → k < offF.length →
      (updateIdeal ideal offF).getD k 0 ≤ ideal.getD k 0) ∧
    (∀ (offs : List Vec) (ideal : Vec) (k : ℕ), k < ideal.length →
      (∀ f ∈ offs, f.length = ideal.length) →
      (offs.foldl updateIdeal ideal).getD k 0 ≤ ideal.getD k 0) ∧
    (∀ (F : List Vec) (m : ℕ), F ≠ [] → (∀ row ∈ F, row.length = m) →
      ∀ k, k < m →
        (∀ row ∈ F, (initIdeal F).getD k 0 ≤ row.getD k 0) ∧
        (∃ row ∈ F, (initIdeal F).getD k 0 = row.getD k 0)) := by
  have hupd : ∀ (ideal offF : Vec) (k : ℕ), k < ideal.length →
      k < offF.length →
      (updateIdeal ideal offF).getD k 0 ≤ ideal.getD k 0 := by
    intro ideal offF k hk hk2
    rw [updateIdeal, zipWith_min_getD ideal offF k hk hk2]
    exact min_le_left _ _
  refine ⟨hupd, ?_, ?_⟩
  · intro offs
    induction offs with
    | nil => intro ideal k hk _; simp
    | cons f rest ih =>
      intro ideal k hk hlen
      have hf : f.length = ideal.length := hlen f (by simp)
      have hair : (updateIdeal ideal f).length = ideal.length := by
        rw [updateIdeal, List.length_zipWith]; omega
      simp only [List.foldl_cons]
      calc (rest.foldl updateIdeal (updateIdeal ideal f)).getD k 0 ≤
            (updateIdeal ideal f).getD k 0 := by
            refine ih (updateIdeal ideal f) k (by omega) ?_
            intro x hx
            rw [hair]
            exact hlen x (List.mem_cons_of_mem _ hx)
        _ ≤ ideal.getD k 0 := hupd ideal f k hk (by omega)
  · intro F m hne hrect k hk
    match F, hne with
    | r :: rs, _ =>
      have hr : r.length = m := hrect r (by simp)
      have hrs : ∀ row ∈ rs, row.length = m := fun x hx =>
        hrect x (List.mem_cons_of_mem _ hx)
      obtain ⟨_, ⟨hle, hall⟩, hatt⟩ := foldl_zip_min m rs r hr hrs k hk
      constructor
      · intro row hrow
        rcases List.mem_cons.mp hrow with h | h
        · subst h; exact hle
        · exact hall row h
      · rcases hatt with h | ⟨x, hx, hxe⟩
        · exact ⟨r, by simp, h⟩
        · exact ⟨x, List.mem_cons_of_mem _ hx, hxe⟩

/-- Witness for `C9_ideal_monotone` at concrete inputs: one update, a
two-update run, and the initialisation over a two-row matrix. -/
theorem C9_witness :
    (updateIdeal [3, 4] [1, 9]).getD 0 0 ≤ (3 : ℚ) ∧
    (([[1, 9], [5, 0]] : List Vec).foldl updateIdeal [3, 4]).getD 1 0 ≤
      (4 : ℚ) ∧
    (∃ row ∈ ([[1, 5], [2, 4]] : List Vec),
      (initIdeal [[1, 5], [2, 4]]).getD 0 0 = row.getD 0 0) := by
  refine ⟨?_, ?_, ?_⟩
  · exact C9_ideal_monotone.1 [3, 4] [1, 9] 0 (by norm_num) (by norm_num)
  · exact C9_ideal_monotone.2.1 [[1, 9], [5, 0]] [3, 4] 1 (by norm_num)
      (by intro f hf; fin_cases hf <;> norm_num)
  · exact ((C9_ideal_monotone.2.2 [[1, 5], [2, 4]] 2 (by simp)
      (by intro row hrow; fin_cases hrow <;> norm_num) 0 (by norm_num)).2)

/-! ## Exploration offspring (C3) -/

/-- One offspring construction of the exploration loop, lines 404-434: when
the PC population has more than one member the promising member `pri` is
recombined (external crossover collaborator, first offspring kept) with the
member at the first index of the random permutation `rnd` different from
`pri`; otherwise the single PC member is taken as the base (`off =
pc_pop[0]`).  In *both* branches the external mutation collaborator is then
applied (lines 430-431), and the external evaluator fills in the objective
vector of the mutated decision vector (line 434).  The `none` fallback of
`find?` keeps the blank second parent of `Population.new(2)`; it is
unreachable when `rnd` is a permutation of `range pc_size` with
`pc_size ≥ 2`. -/
def exploreOffspring (crossover : Ind → Ind → Ind) (mutation : Ind → Ind)
    (evalF : Vec → Vec) (pc_pop : Pop) (original_size : ℕ) (pri : ℕ)
    (rnd : List ℕ) : Ind :=
  let base :=
    if original_size > 1 then
      match rnd.find? (fun j => j != pri) with
      | some j => crossover (pc_pop.getD pri default) (pc_pop.getD j default)
      | none => crossover (pc_pop.getD pri default) default
    else pc_pop.getD 0 default
  let mutated := mutation base
  { mutated with F := evalF mutated.X }

/-- C3 counterexample.  The claim states that with a single-member PC the
offspring is that member unchanged, with no modification of its decision
vector before evaluation.  With the external mutation collaborator
instantiated to one that appends a coordinate (mutation may change the
decision vector), the produced offspring's decision vector differs from the
single member's. -/
theorem C3_counterexample :
    ([⟨[0], [5]⟩] : Pop).length = 1 ∧
    (exploreOffspring (fun a _ => a) (fun ind => ⟨ind.X ++ [1], ind.F⟩)
        (fun x => x) [⟨[0], [5]⟩] 1 0 []).X ≠
      (([⟨[0], [5]⟩] : Pop).getD 0 default).X := by
  constructor
  · rfl
  · decide

/-- C3 amended: during exploration, when the PC population has exactly one
member, no recombination happens — the single member is the offspring base —
but the external mutation collaborator is still applied to it and the
evaluator then fills in the objective vector of the *mutated* decision
vector; the offspring is the member unchanged only when mutation happens to
leave it unchanged. -/
theorem C3_amended (crossover : Ind → Ind → Ind) (mutation : Ind → Ind)
    (evalF : Vec → Vec) (pc_pop : Pop) (pri : ℕ) (rnd : List ℕ)
    (h1 : pc_pop.length = 1) :
    exploreOffspring crossover mutation evalF pc_pop pc_pop.length pri rnd =
      { mutation (pc_pop.getD 0 default) with
        F := evalF (mutation (pc_pop.getD 0 default)).X } := by
  simp [exploreOffspring, h1]

/-- Witness for `C3_amended` at a concrete single-member PC population. -/
theorem C3_witness :
    exploreOffspring (fun a _ => a) (fun ind => ⟨ind.X ++ [1], ind.F⟩)
        (fun x => x) [⟨[0], [5]⟩] ([⟨[0], [5]⟩] : Pop).length 0 [] =
      ⟨[0, 1], [0, 1]⟩ := by
  rw [C3_amended (fun a _ => a) (fun ind => ⟨ind.X ++ [1], ind.F⟩)
    (fun x => x) [⟨[0], [5]⟩] 0 [] (by rfl)]
  decide

/-! ## Fancy-index assignment and the bounded replacement (C5) -/

/-- numpy fancy-index assignment `l[idxs] = v`: every position occurring in
`idxs` receives `v`; `k` is the position of the head of `l`. -/
def assignAll {α : Type} (v : α) : List α → List ℕ → ℕ → List α
  | [], _, _ => []
  | x :: xs, idxs, k =>
    (if k ∈ idxs then v else x) :: assignAll v xs idxs (k + 1)

theorem assignAll_length {α : Type} (v : α) :
    ∀ (l : List α) (idxs : List ℕ) (k : ℕ),
      (assignAll v l idxs k).length = l.length := by
  intro l
  induction l with
  | nil => intro idxs k; rfl
  | cons x xs ih => intro idxs k; simp [assignAll, ih]

theorem assignAll_getD {α : Type} [Inhabited α] (v : α) :
    ∀ (l : List α) (idxs : List ℕ) (k j : ℕ), j < l.length →
      (assignAll v l idxs k).getD j default =
        if (k + j) ∈ idxs then v else l.getD j default := by
  intro l
  induction l with
  | nil => intro idxs k j h; simp at h
  | cons x xs ih =>
    intro idxs k j h
    cases j with
    | zero => simp [assignAll]
    | succ n =>
      have h2 := ih idxs (k + 1) n (by simpa using Nat.lt_of_succ_lt_succ h)
      simp only [assignAll, List.getD_cons_succ]
      rw [h2, show k + 1 + n = k + (n + 1) by omega]

/-- Filtering positions of `N` by a predicate on the stored value and then
reading the values gives the value-level filter of `N`. -/
theorem range_filter_getD {α : Type} [Inhabited α] (p : α → Bool) :
    ∀ N : List α,
      (((List.range N.length).filter fun k => p (N.getD k default)).map
        fun k => N.getD k default) = N.filter p := by
  intro N
  induction N with
  | nil => simp
  | cons x xs ih =>
    rw [List.length_cons, List.range_succ_eq_map, List.filter_cons]
    simp only [List.getD_cons_zero]
    have hmap : ((List.map Nat.succ (List.range xs.length)).filter
        fun k => p ((x :: xs).getD k default)) =
          List.map Nat.succ ((List.range xs.length).filter
            ((fun k => p ((x :: xs).getD k default)) ∘ Nat.succ)) :=
      List.filter_map Nat.succ (List.range xs.length)
    have hfc : ((List.range xs.length).filter
        ((fun k => p ((x :: xs).getD k default)) ∘ Nat.succ)) =
        ((List.range xs.length).filter fun k => p (xs.getD k default)) :=
      List.filter_congr fun k _ => by simp
    have hcomp : ((fun k => (x :: xs).getD k default) ∘ Nat.succ) =
        fun k => xs.getD k default := funext fun k => by simp
    have hbase : List.map (fun k => (x :: xs).getD k default)
        ((List.map Nat.succ (List.range xs.length)).filter
          fun k => p ((x :: xs).getD k default)) = xs.filter p := by
      rw [hmap, hfc, List.map_map, hcomp, ih]
    by_cases hp : p x = true
    · rw [if_pos hp, List.map_cons, hbase, List.filter_cons, if_pos hp]
      simp
    · rw [if_neg hp, hbase, List.filter_cons, if_neg hp]

/-- `BCEMOEAD._replace(i, off)`, lines 502-523: the local bounded NPC
replacement for focal subproblem `i`.  `nr = ceil(pop_size / 100)` with
`pop_size = len(ref_dirs)`; `N = neighbors[i]`; the decomposed value of
every neighbour (each against its own weight vector and the shared ideal
point) is compared with the offspring's; the positions (in neighbour order)
where the offspring is strictly better are collected, the first `nr` of
them are kept, and the NPC slots at those neighbour indices all receive the
single offspring (fancy-index assignment). -/
def _replace (decomp : Vec → Vec → Vec → ℚ) (neighbors : List (List ℕ))
    (ref_dirs : List Vec) (ideal : Vec) (npc_pop : Pop) (i : ℕ)
    (off : Ind) : Pop :=
  let pop_size := ref_dirs.length
  let nr := (pop_size + 99) / 100
  let N := neighbors.getD i []
  let FV := N.map fun j =>
    decomp (npc_pop.getD j default).F (ref_dirs.getD j []) ideal
  let off_FV := N.map fun j => decomp off.F (ref_dirs.getD j []) ideal
  let I := (List.range N.length).filter fun k =>
    decide (off_FV.getD k 0 < FV.getD k 0)
  if I = [] then npc_pop
  else assignAll off npc_pop ((I.take nr).map fun k => N.getD k 0) 0

/-- Specialisation of `range_filter_getD` to ℕ with the literal default 0
used by `_replace`. -/
theorem range_filter_getD0 (p : ℕ → Bool) (N : List ℕ) :
    (((List.range N.length).filter fun k => p (N.getD k 0)).map
      fun k => N.getD k 0) = N.filter p :=
  range_filter_getD p N

/-- `_replace` rewritten with the position-level bookkeeping eliminated:
the assigned slots are the first `nr` entries of the value-level filter of
the neighbour list. -/
theorem replace_eq (decomp : Vec → Vec → Vec → ℚ)
    (neighbors : List (List ℕ)) (ref_dirs : List Vec) (ideal : Vec)
    (npc_pop : Pop) (i : ℕ) (off : Ind) :
    _replace decomp neighbors ref_dirs ideal npc_pop i off =
      (if ((neighbors.getD i []).filter fun n =>
          decide (decomp off.F (ref_dirs.getD n []) ideal <
            decomp (npc_pop.getD n default).F (ref_dirs.getD n [])
              ideal)) = []
       then npc_pop
       else assignAll off npc_pop
         (((neighbors.getD i []).filter fun n =>
            decide (decomp off.F (ref_dirs.getD n []) ideal <
              decomp (npc_pop.getD n default).F (ref_dirs.getD n [])
                ideal)).take ((ref_dirs.length + 99) / 100)) 0) := by
  have hIfilter : ((List.range (neighbors.getD i []).length).filter
      fun k => decide ((((neighbors.getD i []).map fun j =>
          decomp off.F (ref_dirs.getD j []) ideal).getD k 0) <
        (((neighbors.getD i []).map fun j =>
            decomp (npc_pop.getD j default).F (ref_dirs.getD j [])
              ideal).getD k 0))) =
      ((List.range (neighbors.getD i []).length).filter
        fun k => (fun n => decide (decomp off.F (ref_dirs.getD n []) ideal <
          decomp (npc_pop.getD n default).F (ref_dirs.getD n []) ideal))
          ((neighbors.getD i []).getD k 0)) := by
    apply List.filter_congr
    intro k hk
    have hklt : k < (neighbors.getD i []).length := List.mem_range.mp hk
    rw [getD_map_of_lt (fun j => decomp off.F (ref_dirs.getD j []) ideal)
      (neighbors.getD i []) k hklt 0 0]
    rw [getD_map_of_lt (fun j => decomp (npc_pop.getD j default).F
      (ref_dirs.getD j []) ideal) (neighbors.getD i []) k hklt 0 0]
  have hmap := range_filter_getD0 (fun n =>
    decide (decomp off.F (ref_dirs.getD n []) ideal <
      decomp (npc_pop.getD n default).F (ref_dirs.getD n []) ideal))
    (neighbors.getD i [])
  simp only [_replace, hIfilter]
  have hcond : (((List.range (neighbors.getD i []).length).filter
      fun k => (fun n => decide (decomp off.F (ref_dirs.getD n []) ideal <
        decomp (npc_pop.getD n default).F (ref_dirs.getD n []) ideal))
        ((neighbors.getD i []).getD k 0)) = []) ↔
      (((neighbors.getD i []).filter fun n =>
        decide (decomp off.F (ref_dirs.getD n []) ideal <
          decomp (npc_pop.getD n default).F (ref_dirs.getD n [])
            ideal)) = []) := by
    rw [← hmap]
    exact (List.map_eq_nil).symm
  have htake : (((List.range (neighbors.getD i []).length).filter
        fun k => (fun n => decide (decomp off.F (ref_dirs.getD n []) ideal <
          decomp (npc_pop.getD n default).F (ref_dirs.getD n []) ideal))
          ((neighbors.getD i []).getD k 0)).take
        ((ref_dirs.length + 99) / 100)).map
        (fun k => (neighbors.getD i []).getD k 0) =
      ((neighbors.getD i []).filter fun n =>
        decide (decomp off.F (ref_dirs.getD n []) ideal <
          decomp (npc_pop.getD n default).F (ref_dirs.getD n [])
            ideal)).take ((ref_dirs.length + 99) / 100) := by
    rw [List.map_take, hmap]
  rw [htake]
  exact if_congr hcond rfl rfl

/-! ## C5 -/

/-- C5: the local bounded NPC replacement touches at most
`nr = ceil(C/100)` slots, touches only slots inside the focal neighbour set
`N(i)`, overwrites exactly the earliest (in neighbour order) indices of
`N(i)` at which the offspring's scalarised value is strictly smaller than
the incumbent's — up to `nr` of them — each with the single offspring, and
leaves every other slot (in particular every slot outside `N(i)`)
unchanged. -/
theorem C5_replace (decomp : Vec → Vec → Vec → ℚ)
    (neighbors : List (List ℕ)) (ref_dirs : List Vec) (ideal : Vec)
    (npc_pop : Pop) (i : ℕ) (off : Ind) :
    (_replace decomp neighbors ref_dirs ideal npc_pop i off).length =
      npc_pop.length ∧
    (∀ j, j < npc_pop.length →
      (_replace decomp neighbors ref_dirs ideal npc_pop i off).getD j
          default =
        if j ∈ (((neighbors.getD i []).filter fun n =>
            decide (decomp off.F (ref_dirs.getD n []) ideal <
              decomp (npc_pop.getD n default).F (ref_dirs.getD n [])
                ideal)).take ((ref_dirs.length + 99) / 100))
        then off else npc_pop.getD j default) ∧
    ((((neighbors.getD i []).filter fun n =>
        decide (decomp off.F (ref_dirs.getD n []) ideal <
          decomp (npc_pop.getD n default).F (ref_dirs.getD n [])
            ideal)).take ((ref_dirs.length + 99) / 100)) ⊆
      neighbors.getD i []) ∧
    ((((neighbors.getD i []).filter fun n =>
        decide (decomp off.F (ref_dirs.getD n []) ideal <
          decomp (npc_pop.getD n default).F (ref_dirs.getD n [])
            ideal)).take ((ref_dirs.length + 99) / 100)).length ≤
      (ref_dirs.length + 99) / 100) ∧
    (∀ j, j < npc_pop.length → j ∉ neighbors.getD i [] →
      (_replace decomp neighbors ref_dirs ideal npc_pop i off).getD j
        default = npc_pop.getD j default) ∧
    (((List.range npc_pop.length).filter fun j =>
        decide ((_replace decomp neighbors ref_dirs ideal npc_pop i
            off).getD j default ≠ npc_pop.getD j default)).length ≤
      (ref_dirs.length + 99) / 100) := by
  rw [replace_eq decomp neighbors ref_dirs ideal npc_pop i off]
  set nr := (ref_dirs.length + 99) / 100 with hnr
  set VF := ((neighbors.getD i []).filter fun n =>
    decide (decomp off.F (ref_dirs.getD n []) ideal <
      decomp (npc_pop.getD n default).F (ref_dirs.getD n []) ideal))
    with hVF
  have hsub : VF.take nr ⊆ neighbors.getD i [] := by
    intro a ha
    exact List.mem_of_mem_filter (List.take_subset _ _ ha)
  have hlen : (VF.take nr).length ≤ nr := List.length_take_le _ _
  have hpoint : ∀ j, j < npc_pop.length →
      (if VF = [] then npc_pop
        else assignAll off npc_pop (VF.take nr) 0).getD j default =
      if j ∈ VF.take nr then off else npc_pop.getD j default := by
    intro j hj
    by_cases hc : VF = []
    · rw [if_pos hc, hc]
      simp
    · rw [if_neg hc, assignAll_getD off npc_pop (VF.take nr) 0 j hj,
        Nat.zero_add]
  refine ⟨?_, hpoint, hsub, hlen, ?_, ?_⟩
  · by_cases hc : VF = []
    · rw [if_pos hc]
    · rw [if_neg hc]
      exact assignAll_length off npc_pop _ 0
  · intro j hj hnotN
    rw [hpoint j hj, if_neg]
    intro hmem
    exact hnotN (hsub hmem)
  · have hchanged : ((List.range npc_pop.length).filter fun j =>
        decide ((if VF = [] then npc_pop
          else assignAll off npc_pop (VF.take nr) 0).getD j default ≠
            npc_pop.getD j default)) ⊆ VF.take nr := by
      intro j hjmem
      rw [List.mem_filter] at hjmem
      obtain ⟨hjr, hjp⟩ := hjmem
      have hjlt : j < npc_pop.length := List.mem_range.mp hjr
      have hne : (if VF = [] then npc_pop
          else assignAll off npc_pop (VF.take nr) 0).getD j default ≠
            npc_pop.getD j default := of_decide_eq_true hjp
      by_contra hnot
      rw [hpoint j hjlt, if_neg hnot] at hne
      exact hne rfl
    have hnodup : ((List.range npc_pop.length).filter fun j =>
        decide ((if VF = [] then npc_pop
          else assignAll off npc_pop (VF.take nr) 0).getD j default ≠
            npc_pop.getD j default)).Nodup :=
      (List.nodup_range _).filter _
    exact le_trans (hnodup.subperm hchanged).length_le hlen

/-- Witness for `C5_replace`: two subproblems (`nr = 1`), the offspring
beats both neighbours of subproblem 0, and only the earliest neighbour
slot 0 is overwritten. -/
theorem C5_witness :
    (_replace (fun f _ _ => f.getD 0 0) [[0, 1]] [[1], [1]] []
        [⟨[], [5]⟩, ⟨[], [3]⟩] 0 ⟨[], [1]⟩).getD 0 default = ⟨[], [1]⟩ ∧
    (_replace (fun f _ _ => f.getD 0 0) [[0, 1]] [[1], [1]] []
        [⟨[], [5]⟩, ⟨[], [3]⟩] 0 ⟨[], [1]⟩).getD 1 default = ⟨[], [3]⟩ := by
  have h := C5_replace (fun f _ _ => f.getD 0 0) [[0, 1]] [[1], [1]] []
    [⟨[], [5]⟩, ⟨[], [3]⟩] 0 ⟨[], [1]⟩
  have h0 := h.2.1 0 (by norm_num)
  have h1 := h.2.1 1 (by norm_num)
  constructor
  · rw [h0, if_pos (by decide)]
  · rw [h1, if_neg (by decide)]
    decide

/-! ## Global NPC update (C6) -/

/-- The head of a non-empty list is a member. -/
theorem headD_mem {α : Type} (l : List α) (d : α) (h : l ≠ []) :
    l.headD d ∈ l := by
  cases l with
  | nil => exact absurd rfl h
  | cons a t => simp

/-- `update_NPCpop(npc_pop, off, ideal_point, ref_dirs, decomp)`, lines
147-165: every NPC member is scalarised against its own weight vector and
the shared ideal point, the offspring against every weight vector; among
the subproblem indices where the offspring's value is strictly smaller, one
is drawn by `np.random.permutation(I)[0]` — the permutation being supplied
by the oracle `permOracle` — and only that NPC slot receives the offspring.
The index ranges over the NPC population, whose size equals
`len(ref_dirs)` throughout the algorithm. -/
def update_NPCpop (decomp : Vec → Vec → Vec → ℚ)
    (permOracle : List ℕ → List ℕ) (npc_pop : Pop) (off : Ind)
    (ideal_point : Vec) (ref_dirs : List Vec) : Pop :=
  let I := (List.range npc_pop.length).filter fun j =>
    decide (decomp off.F (ref_dirs.getD j []) ideal_point <
      decomp (npc_pop.getD j default).F (ref_dirs.getD j []) ideal_point)
  if I = [] then npc_pop
  else npc_pop.set ((permOracle I).headD 0) off

/-! ## C6 -/

/-- C6: the global NPC update changes at most one slot; a slot may be
overwritten only when the offspring's scalarised value under that slot's
weight vector and the shared ideal point is strictly smaller than the
incumbent's own; when the improving set is non-empty the overwritten slot
is the head of the supplied permutation of the improving set — always a
member of that set — and conversely every member of the improving set is
the overwritten slot under some valid permutation oracle (the random draw
ranges over exactly the improving set). -/
theorem C6_update_NPCpop (decomp : Vec → Vec → Vec → ℚ)
    (permOracle : List ℕ → List ℕ) (npc_pop : Pop) (off : Ind)
    (ideal_point : Vec) (ref_dirs : List Vec)
    (hperm : ∀ l, (permOracle l).Perm l) :
    (((List.range npc_pop.length).filter fun j =>
        decide (decomp off.F (ref_dirs.getD j []) ideal_point <
          decomp (npc_pop.getD j default).F (ref_dirs.getD j [])
            ideal_point)) = [] →
      update_NPCpop decomp permOracle npc_pop off ideal_point ref_dirs =
        npc_pop) ∧
    (((List.range npc_pop.length).filter fun j =>
        decide (decomp off.F (ref_dirs.getD j []) ideal_point <
          decomp (npc_pop.getD j default).F (ref_dirs.getD j [])
            ideal_point)) ≠ [] →
      ∃ i ∈ ((List.range npc_pop.length).filter fun j =>
          decide (decomp off.F (ref_dirs.getD j []) ideal_point <
            decomp (npc_pop.getD j default).F (ref_dirs.getD j [])
              ideal_point)),
        update_NPCpop decomp permOracle npc_pop off ideal_point ref_dirs =
          npc_pop.set i off ∧
        ∀ j, j ≠ i →
          (npc_pop.set i off).getD j default = npc_pop.getD j default) ∧
    (∀ i ∈ ((List.range npc_pop.length).filter fun j =>
        decide (decomp off.F (ref_dirs.getD j []) ideal_point <
          decomp (npc_pop.getD j default).F (ref_dirs.getD j [])
            ideal_point)),
      ∃ po2 : List ℕ → List ℕ, (∀ l, (po2 l).Perm l) ∧
        update_NPCpop decomp po2 npc_pop off ideal_point ref_dirs =
          npc_pop.set i off) := by
  refine ⟨?_, ?_, ?_⟩
  · intro hI
    simp only [update_NPCpop, hI, if_pos]
  · intro hne
    refine ⟨((permOracle ((List.range npc_pop.length).filter fun j =>
      decide (decomp off.F (ref_dirs.getD j []) ideal_point <
        decomp (npc_pop.getD j default).F (ref_dirs.getD j [])
          ideal_point))).headD 0), ?_, ?_, ?_⟩
    · have hpne : (permOracle ((List.range npc_pop.length).filter fun j =>
          decide (decomp off.F (ref_dirs.getD j []) ideal_point <
            decomp (npc_pop.getD j default).F (ref_dirs.getD j [])
              ideal_point))) ≠ [] := by
        intro hcontra
        have hlen2 := (hperm ((List.range npc_pop.length).filter fun j =>
          decide (decomp off.F (ref_dirs.getD j []) ideal_point <
            decomp (npc_pop.getD j default).F (ref_dirs.getD j [])
              ideal_point))).length_eq
        rw [hcontra] at hlen2
        simp only [List.length_nil] at hlen2
        exact hne (List.length_eq_zero.mp hlen2.symm)
      exact (hperm _).subset (headD_mem _ 0 hpne)
    · simp only [update_NPCpop, if_neg hne]
    · intro j hj
      rw [List.getD_eq_getElem?_getD, List.getD_eq_getElem?_getD,
        List.getElem?_set_ne (Ne.symm hj)]
  · intro i hi
    refine ⟨fun l => if i ∈ l then i :: l.erase i else l, ?_, ?_⟩
    · intro l
      show (if i ∈ l then i :: l.erase i else l).Perm l
      by_cases hmem : i ∈ l
      · rw [if_pos hmem]
        exact (List.perm_cons_erase hmem).symm
      · rw [if_neg hmem]
    · have hne : ((List.range npc_pop.length).filter fun j =>
          decide (decomp off.F (ref_dirs.getD j []) ideal_point <
            decomp (npc_pop.getD j default).F (ref_dirs.getD j [])
              ideal_point)) ≠ [] := by
        intro hcontra
        rw [hcontra] at hi
        exact absurd hi (List.not_mem_nil i)
      simp only [update_NPCpop, if_neg hne, if_pos hi, List.headD_cons]

/-- Witness for `C6_update_NPCpop`: five subproblems of which the offspring
beats exactly two (indices 0 and 2); slot 2, a member of the improving set,
is reachable as the overwritten slot under a valid permutation oracle. -/
theorem C6_witness :
    ∃ po2 : List ℕ → List ℕ, (∀ l, (po2 l).Perm l) ∧
      update_NPCpop (fun f _ _ => f.getD 0 0) po2
        [⟨[], [5]⟩, ⟨[], [1]⟩, ⟨[], [5]⟩, ⟨[], [1]⟩, ⟨[], [1]⟩] ⟨[], [2]⟩
        [] [[1], [1], [1], [1], [1]] =
      ([⟨[], [5]⟩, ⟨[], [1]⟩, ⟨[], [5]⟩, ⟨[], [1]⟩, ⟨[], [1]⟩] : Pop).set 2
        ⟨[], [2]⟩ :=
  (C6_update_NPCpop (fun f _ _ => f.getD 0 0) (fun l => l)
    [⟨[], [5]⟩, ⟨[], [1]⟩, ⟨[], [5]⟩, ⟨[], [1]⟩, ⟨[], [1]⟩] ⟨[], [2]⟩
    [] [[1], [1], [1], [1], [1]]
    (fun l => List.Perm.refl l)).2.2 2 (by decide)

/-! ## Euclidean distances, crowding and PC maintenance (C4) -/

/-- Squared Euclidean distance between two vectors. -/
def sqdist (a b : Vec) : ℚ :=
  ((a.zip b).map fun p => (p.1 - p.2) * (p.1 - p.2)).sum

/-- `scipy.spatial.distance.cdist(A, B, 'euclidean')`, with the real square
root supplied as the explicit function parameter `sqrt` (the embedding
keeps rational entries; theorems that need square-root facts state them as
hypotheses on `sqrt`, and witnesses instantiate `sqrt` so that it agrees
with the real square root on every value actually evaluated). -/
def cdist (sqrt : ℚ → ℚ) (A B : List Vec) : List (List ℚ) :=
  A.map fun a => B.map fun b => sqrt (sqdist a b)

/-- `distance[distance == 0] = np.inf` (lines 182 and 362). -/
def maskZeroInf (m : List (List ℚ)) : List (List Qinf) :=
  m.map fun row => row.map fun x => if x = 0 then none else some x

/-- `np.amax`: maximum of a list (`none` on the empty list, where numpy
raises). -/
def amax? : List ℚ → Option ℚ
  | [] => none
  | x :: xs => some (xs.foldl max x)

/-- `np.where(crowd_degree == np.amax(crowd_degree))[0][0]`: the first
index attaining the maximum (`none` on the empty list). -/
def idxOfMax (l : List ℚ) : Option ℕ :=
  match amax? l with
  | none => none
  | some m => (List.range l.length).find? fun k => decide (l.getD k 0 = m)

/-- One entry of `d = np.where(distance < radius, distance / radius, 1)`
(line 196); an infinite distance is never below the finite radius. -/
def crowdFactor (radius : ℚ) : Qinf → ℚ
  | some q => if q < radius then q / radius else 1
  | none => 1

/-- `crowd_degree = 1 - np.prod(d, axis=1)` (lines 196-197). -/
def crowd_degree (distance : List (List Qinf)) (radius : ℚ) : List ℚ :=
  distance.map fun row => 1 - (row.map (crowdFactor radius)).prod

/-- `np.delete(l, i)` for a single position. -/
def deleteIdx {α : Type} (l : List α) (i : ℕ) : List α :=
  l.take i ++ l.drop (i + 1)

/-- Drop row `i` and column `i` of a matrix (lines 226-227). -/
def deleteRowCol (m : List (List Qinf)) (i : ℕ) : List (List Qinf) :=
  (deleteIdx m i).map fun row => deleteIdx row i

/-- `np.delete(l, idxs)` for a list of positions; `k` is the position of
the head of `l`. -/
def deleteIdxsAux {α : Type} (idxs : List ℕ) : ℕ → List α → List α
  | _, [] => []
  | k, x :: xs =>
    if k ∈ idxs then deleteIdxsAux idxs (k + 1) xs
    else x :: deleteIdxsAux idxs (k + 1) xs

/-- `np.delete(l, idxs)`: drop every position occurring in `idxs`. -/
def deleteIdxs {α : Type} (l : List α) (idxs : List ℕ) : List α :=
  deleteIdxsAux idxs 0 l

theorem deleteIdx_length {α : Type} (l : List α) (i : ℕ) (h : i < l.length) :
    (deleteIdx l i).length = l.length - 1 := by
  rw [deleteIdx, List.length_append, List.length_take, List.length_drop]
  omega

theorem deleteRowCol_length (m : List (List Qinf)) (i : ℕ)
    (h : i < m.length) : (deleteRowCol m i).length = m.length - 1 := by
  rw [deleteRowCol, List.length_map, deleteIdx_length m i h]

theorem deleteIdxsAux_length {α : Type} (idxs : List ℕ) :
    ∀ (l : List α) (k : ℕ), (deleteIdxsAux idxs k l).length =
      ((List.range' k l.length).filter fun i => decide (i ∉ idxs)).length := by
  intro l
  induction l with
  | nil => intro k; simp [deleteIdxsAux]
  | cons x xs ih =>
    intro k
    rw [List.length_cons, List.range'_succ, List.filter_cons]
    by_cases hk : k ∈ idxs
    · rw [deleteIdxsAux, if_pos hk]
      have hdec : decide (k ∉ idxs) = false := by simp [hk]
      rw [hdec, if_neg Bool.false_ne_true, ih (k + 1)]
    · rw [deleteIdxsAux, if_neg hk]
      have hdec : decide (k ∉ idxs) = true := by simp [hk]
      rw [hdec, if_pos rfl, List.length_cons, List.length_cons, ih (k + 1)]

/-- Length of the filtered range: removing a duplicate-free set of
positions below `n` leaves `n` minus the set size. -/
theorem filter_not_mem_range_length (idxs : List ℕ) (n : ℕ)
    (hnodup : idxs.Nodup) (hlt : ∀ i ∈ idxs, i < n) :
    (((List.range n).filter fun i => decide (i ∉ idxs))).length =
      n - idxs.length := by
  have hpart : (List.range n).length =
      ((List.range n).filter fun i => decide (i ∈ idxs)).length +
      ((List.range n).filter fun i => !(decide (i ∈ idxs))).length :=
    List.length_eq_length_filter_add _
  have hmemlen : ((List.range n).filter fun i =>
      decide (i ∈ idxs)).length = idxs.length := by
    have h1 : ((List.range n).filter fun i => decide (i ∈ idxs)) ⊆ idxs := by
      intro a ha
      rw [List.mem_filter] at ha
      exact of_decide_eq_true ha.2
    have h2 : idxs ⊆ ((List.range n).filter fun i => decide (i ∈ idxs)) := by
      intro a ha
      rw [List.mem_filter]
      exact ⟨List.mem_range.mpr (hlt a ha), decide_eq_true ha⟩
    have hn1 : ((List.range n).filter fun i => decide (i ∈ idxs)).Nodup :=
      (List.nodup_range n).filter _
    exact le_antisymm ((hn1.subperm h1).length_le)
      ((hnodup.subperm h2).length_le)
  have hcongr : ((List.range n).filter fun i =>
      !(decide (i ∈ idxs))) = ((List.range n).filter fun i =>
      decide (i ∉ idxs)) :=
    List.filter_congr fun a _ => by simp
  rw [← hcongr]
  rw [List.length_range] at hpart
  omega

theorem deleteIdxs_length {α : Type} (l : List α) (idxs : List ℕ)
    (hnodup : idxs.Nodup) (hlt : ∀ i ∈ idxs, i < l.length) :
    (deleteIdxs l idxs).length = l.length - idxs.length := by
  rw [deleteIdxs, deleteIdxsAux_length idxs l 0, ← List.range_eq_range']
  exact filter_not_mem_range_length idxs l.length hnodup hlt

/-- The fold maximum is one of the listed values. -/
theorem foldl_max_mem : ∀ (xs : List ℚ) (x : ℚ), xs.foldl max x ∈ x :: xs := by
  intro xs
  induction xs with
  | nil => intro x; simp
  | cons y ys ih =>
    intro x
    rw [List.foldl_cons]
    have h := ih (max x y)
    rcases List.mem_cons.mp h with h1 | h1
    · rw [h1]
      rcases max_choice x y with hc | hc
      · rw [hc]; exact List.mem_cons_self x (y :: ys)
      · rw [hc]; exact List.mem_cons_of_mem x (List.mem_cons_self y ys)
    · exact List.mem_cons_of_mem x (List.mem_cons_of_mem y h1)

/-- On a non-empty list, the first-argmax search succeeds and returns an
in-range index. -/
theorem idxOfMax_some (l : List ℚ) (hne : l ≠ []) :
    ∃ k, idxOfMax l = some k ∧ k < l.length := by
  match l, hne with
  | x :: xs, _ =>
    have hmem : xs.foldl max x ∈ x :: xs := foldl_max_mem xs x
    obtain ⟨⟨n, hn⟩, hget⟩ := List.mem_iff_get.mp hmem
    have hfind : ∃ k ∈ List.range (x :: xs).length,
        decide ((x :: xs).getD k 0 = xs.foldl max x) = true := by
      refine ⟨n, List.mem_range.mpr hn, ?_⟩
      rw [List.getD_eq_getElem _ _ hn]
      simp only [← hget]
      simp [List.get_eq_getElem]
    have hsome := List.find?_isSome.mpr hfind
    cases hf : (List.range (x :: xs).length).find? fun k =>
        decide ((x :: xs).getD k 0 = xs.foldl max x) with
    | none => rw [hf] at hsome; simp at hsome
    | some k =>
      refine ⟨k, ?_, ?_⟩
      · simp only [idxOfMax, amax?]
        exact hf
      · exact List.mem_range.mp (List.mem_of_find?_eq_some hf)

/-- The `while current_size > pc_capacity` loop of `maintain_PCpop`
(lines 191-235), in structural recursion on `current_size`: the loop body
either ends the loop (degenerate branch: every remaining member has
crowding degree 0, a random batch of `current_size - pc_capacity` members
is removed) or deletes the first member of maximal crowding degree, drops
its row and column from the distance matrix, and repeats with
`current_size - 1`.  The random permutation of the degenerate branch is
supplied by the oracle `rndperm`; `none` models the numpy error raised by
`np.amax` on an empty array (unreachable while the tracked sizes agree). -/
def maintainLoop (rndperm : ℕ → List ℕ) (radius : ℚ) (pc_capacity : ℕ) :
    ℕ → List (List Qinf) → Pop → Option Pop
  | 0, _, PCPop => some PCPop
  | c + 1, distance, PCPop =>
    if c + 1 ≤ pc_capacity then some PCPop
    else
      match amax? (crowd_degree distance radius) with
      | none => none
      | some mx =>
        if mx = 0 then
          some (deleteIdxs PCPop
            ((rndperm (c + 1)).take (c + 1 - pc_capacity)))
        else
          match idxOfMax (crowd_degree distance radius) with
          | none => none
          | some del =>
            maintainLoop rndperm radius pc_capacity c
              (deleteRowCol distance del) (deleteIdx PCPop del)

/-- The masked pairwise-distance matrix of a (normalised) population
(lines 178-182). -/
def pcDistance (sqrt : ℚ → ℚ) (P : Pop) : List (List Qinf) :=
  maskZeroInf (cdist sqrt (P.map (·.F)) (P.map (·.F)))

/-- `maintain_PCpop(PCPop, pc_capacity)`, lines 167-237: normalise a deep
copy of the PC population, build the pairwise Euclidean distance matrix
with zeros masked to infinity, compute the niche radius once, then run the
truncation loop.  `none` models the IndexError raised inside
`determine_radius` when every rank average is infinite. -/
def maintain_PCpop (sqrt : ℚ → ℚ) (rndperm : ℕ → List ℕ) (PCPop : Pop)
    (pc_capacity : ℕ) : Option Pop :=
  let pc_pop := normalize_pop PCPop
  let pc_size := pc_pop.length
  let distance := pcDistance sqrt pc_pop
  match determine_radius distance pc_size pc_capacity with
  | none => none
  | some radius =>
    maintainLoop rndperm radius pc_capacity pc_size distance PCPop

theorem pcDistance_length (sqrt : ℚ → ℚ) (P : Pop) :
    (pcDistance sqrt P).length = P.length := by
  simp [pcDistance, maskZeroInf, cdist]

theorem normalize_pop_length (P : Pop) :
    (normalize_pop P).length = P.length := by
  simp [normalize_pop]

/-- Size bound for the truncation loop: a successful run ends at or below
the capacity, provided the tracked size, the distance matrix and the
population agree and the random oracle returns genuine permutations. -/
theorem maintainLoop_le (rndperm : ℕ → List ℕ) (radius : ℚ)
    (pc_capacity : ℕ) (hrnd : ∀ n, (rndperm n).Perm (List.range n)) :
    ∀ (current : ℕ) (distance : List (List Qinf)) (PCPop : Pop) (P' : Pop),
      distance.length = current → PCPop.length = current →
      maintainLoop rndperm radius pc_capacity current distance PCPop =
        some P' →
      P'.length ≤ pc_capacity := by
  intro current
  induction current with
  | zero =>
    intro distance PCPop P' _ hP h
    simp only [maintainLoop] at h
    cases h
    omega
  | succ c ih =>
    intro distance PCPop P' hd hP h
    simp only [maintainLoop] at h
    by_cases hcap : c + 1 ≤ pc_capacity
    · rw [if_pos hcap] at h
      cases h
      omega
    · rw [if_neg hcap] at h
      have hcrowdlen : (crowd_degree distance radius).length = c + 1 := by
        rw [crowd_degree, List.length_map, hd]
      have hcrowdne : crowd_degree distance radius ≠ [] := by
        intro hc
        rw [hc] at hcrowdlen
        simp at hcrowdlen
      split at h
      · exact Option.noConfusion h
      · rename_i mx hamax
        by_cases hmx : mx = 0
        · rw [if_pos hmx] at h
          cases h
          have hperm := hrnd (c + 1)
          have hlenperm : (rndperm (c + 1)).length = c + 1 := by
            rw [hperm.length_eq, List.length_range]
          have hnodup : ((rndperm (c + 1)).take
              (c + 1 - pc_capacity)).Nodup :=
            (List.take_sublist _ _).nodup
              (hperm.nodup_iff.mpr (List.nodup_range _))
          have hlt : ∀ i ∈ (rndperm (c + 1)).take (c + 1 - pc_capacity),
              i < PCPop.length := by
            intro i hi
            have h2 : i ∈ rndperm (c + 1) := List.take_subset _ _ hi
            have h3 : i ∈ List.range (c + 1) := hperm.subset h2
            rw [hP]
            exact List.mem_range.mp h3
          have htakelen : ((rndperm (c + 1)).take
              (c + 1 - pc_capacity)).length = c + 1 - pc_capacity := by
            rw [List.length_take, hlenperm]
            omega
          rw [deleteIdxs_length _ _ hnodup hlt, htakelen, hP]
          omega
        · rw [if_neg hmx] at h
          split at h
          · exact Option.noConfusion h
          · rename_i del hidx
            have hdel : del < c + 1 := by
              obtain ⟨k, hk, hklt⟩ := idxOfMax_some _ hcrowdne
              rw [hidx] at hk
              cases hk
              rw [hcrowdlen] at hklt
              exact hklt
            exact ih (deleteRowCol distance del) (deleteIdx PCPop del) P'
              (by rw [deleteRowCol_length distance del (by omega)]; omega)
              (by rw [deleteIdx_length PCPop del (by omega)]; omega) h

/-- The truncation loop is skipped entirely when the entry size is within
the capacity. -/
theorem maintainLoop_noop (rndperm : ℕ → List ℕ) (radius : ℚ)
    (pc_capacity current : ℕ) (distance : List (List Qinf)) (PCPop : Pop)
    (h : current ≤ pc_capacity) :
    maintainLoop rndperm radius pc_capacity current distance PCPop =
      some PCPop := by
  cases current with
  | zero => simp [maintainLoop]
  | succ c =>
    simp only [maintainLoop]
    rw [if_pos h]

/-! ## C4 -/

/-- C4 amended: (i) whenever `maintain_PCpop` returns successfully, the
returned population size is at most the capacity (for any capacity, any
population, and a random oracle that returns genuine permutations); and
(ii) whenever the entry size is at most the capacity *and* the niche-radius
computation succeeds, the population is returned unchanged.  The claim
without the success qualification fails: on a degenerate population (e.g.
a singleton, whose only pairwise distance is masked to infinity) the radius
scan raises an IndexError instead of returning — see `C4_counterexample`. -/
theorem C4_maintain_capacity (sqrt : ℚ → ℚ) (rndperm : ℕ → List ℕ)
    (PCPop : Pop) (pc_capacity : ℕ)
    (hrnd : ∀ n, (rndperm n).Perm (List.range n)) :
    (∀ P', maintain_PCpop sqrt rndperm PCPop pc_capacity = some P' →
      P'.length ≤ pc_capacity) ∧
    (PCPop.length ≤ pc_capacity →
      determine_radius (pcDistance sqrt (normalize_pop PCPop))
        (normalize_pop PCPop).length pc_capacity ≠ none →
      maintain_PCpop sqrt rndperm PCPop pc_capacity = some PCPop) := by
  constructor
  · intro P' h
    simp only [maintain_PCpop] at h
    split at h
    · exact Option.noConfusion h
    · rename_i radius hrad
      exact maintainLoop_le rndperm radius pc_capacity hrnd
        (normalize_pop PCPop).length
        (pcDistance sqrt (normalize_pop PCPop)) PCPop P'
        (pcDistance_length sqrt (normalize_pop PCPop))
        (normalize_pop_length PCPop).symm h
  · intro hle hrad
    simp only [maintain_PCpop]
    split
    · rename_i hnone
      exact absurd hnone hrad
    · rename_i radius hrad2
      exact maintainLoop_noop rndperm radius pc_capacity
        (normalize_pop PCPop).length
        (pcDistance sqrt (normalize_pop PCPop)) PCPop
        (by rw [normalize_pop_length]; exact hle)

/-- C4 counterexample.  The claim states that for *every* PC population and
capacity, when the entry size is within the capacity, `truncate` returns
the population unchanged.  On the singleton population, entry size 1 ≤
capacity 1, but the pairwise distance matrix is the single masked-to-
infinity self-distance, every rank average is infinite, and the radius
scan of `determine_radius` runs past the front of the array: the call
raises (returns `none`) instead of returning the population.  Only
`sqrt 0` is evaluated here, where the identity agrees with the real square
root. -/
theorem C4_counterexample :
    ([⟨[0], [5]⟩] : Pop).length ≤ 1 ∧
    maintain_PCpop (fun q => q) (fun n => List.range n) [⟨[0], [5]⟩] 1 =
      none := by
  constructor
  · norm_num
  · simp only [maintain_PCpop, normalize_pop, mapWithIdx, column, qmax,
      qmin, pcDistance, cdist, sqdist, maskZeroInf, determine_radius,
      aveDist, qsort, qinsert, qle, qmean, qsum, qadd, radiusScan, npGet,
      List.map_cons, List.map_nil, List.zip_cons_cons, List.zip_nil_right,
      List.sum_cons, List.sum_nil, List.foldl_cons, List.foldl_nil]
    norm_num [radiusScan, npGet, qmean, qsum, qadd, List.range_succ]

/-- Witness for `C4_maintain_capacity`: a two-member population with
distinct normalised objective vectors is left unchanged by a truncation to
capacity 2 (the radius computation succeeds with radius 1).  `sqrt` is only
evaluated at the squared distances 0 and 1, where the identity agrees with
the real square root. -/
theorem C4_witness :
    maintain_PCpop (fun q => q) (fun n => List.range n)
      [⟨[0], [0, 0]⟩, ⟨[0], [0, 1]⟩] 2 =
      some [⟨[0], [0, 0]⟩, ⟨[0], [0, 1]⟩] := by
  refine (C4_maintain_capacity (fun q => q) (fun n => List.range n)
    [⟨[0], [0, 0]⟩, ⟨[0], [0, 1]⟩] 2 (fun n => List.Perm.refl _)).2
    (by norm_num) ?_
  simp only [normalize_pop, mapWithIdx, column, qmax, qmin, pcDistance,
    cdist, sqdist, maskZeroInf, determine_radius, aveDist, qsort, qinsert,
    qle, qmean, qsum, qadd, radiusScan, npGet, List.map_cons, List.map_nil,
    List.zip_cons_cons, List.zip_nil_right, List.sum_cons, List.sum_nil,
    List.foldl_cons, List.foldl_nil]
  norm_num [radiusScan, npGet, qmean, qsum, qadd, List.range_succ]
  exact fun hcontra => Option.noConfusion hcontra

/-! ## End-of-generation merge phase (C2) -/

/-- Front 0 of the external non-dominated-sorting collaborator (contract
of spec §6): the members not strictly dominated by any member, in order. -/
def nonDomFront0 (pop : Pop) : Pop :=
  pop.filter fun a => pop.all fun b => decide (get_relation b.F a.F ≠ 1)

/-- Helper of `dedupeByX`: `seen` holds the decision vectors already
kept. -/
def dedupeByXAux : List Vec → Pop → Pop
  | _, [] => []
  | seen, x :: xs =>
    if x.X ∈ seen then dedupeByXAux seen xs
    else x :: dedupeByXAux (x.X :: seen) xs

/-- A concrete instance of the external duplicate-elimination collaborator:
keep the first occurrence of each decision vector.  `endOfGen` itself is
parametric in the collaborator; this instance serves witnesses and
counterexamples. -/
def dedupeByX (l : Pop) : Pop := dedupeByXAux [] l

/-- The end-of-generation merge/deduplicate/truncate/publish phase, lines
474-500: merge `self.pc_pop`, `self.npc_pop` and the previously published
`self.pop`; deduplicate (external collaborator `dedupe`); only when the
merged size exceeds the capacity, reassign `self.pc_pop` to the
non-dominated subset, truncating with `maintain_PCpop` when still over
capacity — otherwise `self.pc_pop` keeps the value it accumulated during
the generation; finally publish `self.pop := self.pc_pop.copy()`.  The
returned pair is (new `pc_pop`, new `pop`); `none` models an exception
escaping `maintain_PCpop`. -/
def endOfGen (sqrt : ℚ → ℚ) (rndperm : ℕ → List ℕ) (dedupe : Pop → Pop)
    (pc_pop npc_pop pop : Pop) (pc_capacity : ℕ) : Option (Pop × Pop) :=
  let merged := dedupe ((pc_pop ++ npc_pop) ++ pop)
  if merged.length > pc_capacity then
    let front0 := nonDomFront0 merged
    if front0.length > pc_capacity then
      match maintain_PCpop sqrt rndperm front0 pc_capacity with
      | none => none
      | some pcM => some (pcM, pcM)
    else some (front0, front0)
  else some (pc_pop, pc_pop)

/-! ## C2 -/

/-- C2 counterexample.  The claim states that when the merged deduplicated
set is within capacity, that merged set itself becomes the new PC and the
published population.  With `pc = [a]`, `npc = [b]`, previous population
`[a]` and capacity 5, the merged deduplicated set is `[a, b]` (size 2 ≤ 5),
yet the phase returns PC `[a]` — the merged set is discarded and the PC
accumulated during the generation is kept — and `[a] ≠ [a, b]`. -/
theorem C2_counterexample :
    dedupeByX ((([⟨[0], [0]⟩] : Pop) ++ [⟨[1], [1]⟩]) ++ [⟨[0], [0]⟩]) =
      [⟨[0], [0]⟩, ⟨[1], [1]⟩] ∧
    (dedupeByX ((([⟨[0], [0]⟩] : Pop) ++ [⟨[1], [1]⟩]) ++
      [⟨[0], [0]⟩])).length ≤ 5 ∧
    endOfGen (fun q => q) (fun n => List.range n) dedupeByX
      [⟨[0], [0]⟩] [⟨[1], [1]⟩] [⟨[0], [0]⟩] 5 =
      some ([⟨[0], [0]⟩], [⟨[0], [0]⟩]) ∧
    ([⟨[0], [0]⟩] : Pop) ≠ [⟨[0], [0]⟩, ⟨[1], [1]⟩] := by
  decide

/-- C2 amended: at the end of a generation step the published population
always equals the new PC; when the merged deduplicated set exceeds the
capacity, the new PC is its non-dominated subset, further truncated by
`maintain_PCpop` when that subset is still over capacity; but when the
merged deduplicated set is within capacity, the PC population is left as
accumulated during the step (the merged set is discarded), and that PC is
published. -/
theorem C2_endOfGen (sqrt : ℚ → ℚ) (rndperm : ℕ → List ℕ)
    (dedupe : Pop → Pop) (pc_pop npc_pop pop : Pop) (pc_capacity : ℕ)
    (pc' pop' : Pop)
    (h : endOfGen sqrt rndperm dedupe pc_pop npc_pop pop pc_capacity =
      some (pc', pop')) :
    pop' = pc' ∧
    ((dedupe ((pc_pop ++ npc_pop) ++ pop)).length ≤ pc_capacity →
      pc' = pc_pop) ∧
    ((dedupe ((pc_pop ++ npc_pop) ++ pop)).length > pc_capacity →
      (nonDomFront0 (dedupe ((pc_pop ++ npc_pop) ++ pop))).length ≤
        pc_capacity →
      pc' = nonDomFront0 (dedupe ((pc_pop ++ npc_pop) ++ pop))) ∧
    ((dedupe ((pc_pop ++ npc_pop) ++ pop)).length > pc_capacity →
      (nonDomFront0 (dedupe ((pc_pop ++ npc_pop) ++ pop))).length >
        pc_capacity →
      maintain_PCpop sqrt rndperm
        (nonDomFront0 (dedupe ((pc_pop ++ npc_pop) ++ pop)))
        pc_capacity = some pc') := by
  simp only [endOfGen] at h
  split at h
  · rename_i hgt
    split at h
    · rename_i hgt2
      split at h
      · exact Option.noConfusion h
      · rename_i pcM heq
        cases h
        exact ⟨rfl, fun hle => absurd hgt (by omega),
          fun _ hle => absurd hgt2 (by omega), fun _ _ => heq⟩
    · rename_i hle2
      cases h
      exact ⟨rfl, fun hle => absurd hgt (by omega), fun _ _ => rfl,
        fun _ hgt2 => absurd hgt2 (by omega)⟩
  · rename_i hle
    cases h
    exact ⟨rfl, fun _ => rfl, fun hgt => absurd hgt (by omega),
      fun hgt => absurd hgt (by omega)⟩

/-- Witness for `C2_endOfGen`: with capacity 1 the merged deduplicated set
`[a, b]` exceeds capacity, and the phase returns its non-dominated subset
`[a]` as the new PC. -/
theorem C2_witness :
    ([⟨[0], [0]⟩] : Pop) =
      nonDomFront0 (dedupeByX ((([⟨[0], [0]⟩] : Pop) ++ [⟨[1], [1]⟩]) ++
        [⟨[0], [0]⟩])) := by
  have h := C2_endOfGen (fun q => q) (fun n => List.range n) dedupeByX
    [⟨[0], [0]⟩] [⟨[1], [1]⟩] [⟨[0], [0]⟩] 1 [⟨[0], [0]⟩] [⟨[0], [0]⟩]
    (by decide)
  exact h.2.2.1 (by decide) (by decide)

/-! ## Neighbour sets (C10) and the full generation step -/

/-- `np.argsort` of one distance row: the indices `0 .. len - 1` sorted by
their stored value.  numpy's quicksort leaves tie order unspecified; the
insertion sort here is one deterministic refinement of that contract. -/
def argsortQ (row : List ℚ) : List ℕ :=
  List.insertionSort (fun a b => row.getD a 0 ≤ row.getD b 0)
    (List.range row.length)

/-- `self.neighbors` of `BCEMOEAD.__init__`, lines 300-306:
`np.argsort(cdist(ref_dirs, ref_dirs), axis=1)[:, :n]` with
`n = min(len(ref_dirs), n_neighbors)`. -/
def neighborsOf (sqrt : ℚ → ℚ) (ref_dirs : List Vec) (n_neighbors : ℕ) :
    List (List ℕ) :=
  (cdist sqrt ref_dirs ref_dirs).map fun row =>
    (argsortQ row).take (min ref_dirs.length n_neighbors)

theorem sqdist_self : ∀ a : Vec, sqdist a a = 0 := by
  intro a
  induction a with
  | nil => rfl
  | cons x xs ih =>
    simp only [sqdist, List.zip_cons_cons, List.map_cons, List.sum_cons]
    simp only [sqdist] at ih
    rw [ih]
    ring

theorem sqdist_nonneg : ∀ a b : Vec, 0 ≤ sqdist a b := by
  intro a
  induction a with
  | nil => intro b; simp [sqdist]
  | cons x xs ih =>
    intro b
    cases b with
    | nil => simp [sqdist]
    | cons y ys =>
      simp only [sqdist, List.zip_cons_cons, List.map_cons, List.sum_cons]
      have h1 : 0 ≤ (x - y) * (x - y) := mul_self_nonneg _
      have h2 := ih ys
      simp only [sqdist] at h2
      linarith

theorem sqdist_pos : ∀ a b : Vec, a ≠ b → a.length = b.length →
    0 < sqdist a b := by
  intro a
  induction a with
  | nil =>
    intro b hne hlen
    cases b with
    | nil => exact absurd rfl hne
    | cons y ys => simp at hlen
  | cons x xs ih =>
    intro b hne hlen
    cases b with
    | nil => simp at hlen
    | cons y ys =>
      simp only [sqdist, List.zip_cons_cons, List.map_cons, List.sum_cons]
      by_cases hxy : x = y
      · subst hxy
        have hne2 : xs ≠ ys := fun hcontra => hne (by rw [hcontra])
        have h2 := ih ys hne2 (by simpa using hlen)
        simp only [sqdist] at h2
        have h1 : (x - x) * (x - x) = 0 := by ring
        linarith
      · have hsub : x - y ≠ 0 := sub_ne_zero.mpr hxy
        have h1 : 0 < (x - y) * (x - y) := mul_self_pos.mpr hsub
        have h2 := sqdist_nonneg xs ys
        simp only [sqdist] at h2
        linarith

/-- When index `i` holds the strict minimum of the row, the argsort starts
with `i`. -/
theorem argsortQ_head (row : List ℚ) (i : ℕ) (hi : i < row.length)
    (hmin : ∀ j, j < row.length → j ≠ i → row.getD i 0 < row.getD j 0) :
    ∃ t, argsortQ row = i :: t := by
  letI : IsTotal ℕ (fun a b => row.getD a 0 ≤ row.getD b 0) :=
    ⟨fun a b => le_total _ _⟩
  letI : IsTrans ℕ (fun a b => row.getD a 0 ≤ row.getD b 0) :=
    ⟨fun a b c hab hbc => le_trans hab hbc⟩
  have hperm : (argsortQ row).Perm (List.range row.length) :=
    List.perm_insertionSort _ _
  have hsorted : List.Sorted (fun a b => row.getD a 0 ≤ row.getD b 0)
      (argsortQ row) := List.sorted_insertionSort _ _
  have hlen : (argsortQ row).length = row.length := by
    rw [hperm.length_eq, List.length_range]
  have hne2 : argsortQ row ≠ [] := by
    intro hc
    rw [hc] at hlen
    simp at hlen
    omega
  obtain ⟨h, t, hL⟩ := List.exists_cons_of_ne_nil hne2
  rw [hL] at hperm hsorted
  by_cases hhi : h = i
  · exact ⟨t, by rw [hL, hhi]⟩
  · exfalso
    have hmem_i : i ∈ h :: t := hperm.mem_iff.mpr (List.mem_range.mpr hi)
    have hmem_t : i ∈ t := by
      rcases List.mem_cons.mp hmem_i with heq | hm
      · exact absurd heq.symm hhi
      · exact hm
    have hh_lt : h < row.length :=
      List.mem_range.mp (hperm.subset (List.mem_cons_self h t))
    have hr : row.getD h 0 ≤ row.getD i 0 :=
      List.rel_of_sorted_cons hsorted i hmem_t
    exact absurd hr (not_le.mpr (hmin h hh_lt hhi))

/-- The mutable algorithm state of `BCEMOEAD`: the constructor-time fields
`ref_dirs`, `pc_capacity = len(ref_dirs)`, `n_neighbors` and `neighbors`,
and the per-generation fields `pc_pop`, `npc_pop`, the published `pop` and
the ideal point. -/
structure AlgState where
  ref_dirs : List Vec
  pc_capacity : ℕ
  n_neighbors : ℕ
  neighbors : List (List ℕ)
  pc_pop : Pop
  npc_pop : Pop
  pop : Pop
  ideal : Vec

/-- The external collaborators and randomness sources consumed by one
generation step, supplied as oracle functions: the real square root used
inside `cdist`, the decomposition collaborator, crossover / mutation /
evaluation, the random permutation of PC indices drawn for each promising
individual (line 413, indexed by the loop counter), the random permutation
drawn inside the global NPC update (line 162, per loop iteration), the
random ordering of the NPC loop (line 452), the composite neighbourhood
selection + mating + evaluation of lines 452-463 producing one evaluated
offspring from the current NPC population, the permutation drawn in the
degenerate branch of `maintain_PCpop`, and the duplicate-elimination
collaborator. -/
structure Oracles where
  sqrt : ℚ → ℚ
  decomp : Vec → Vec → Vec → ℚ
  crossover : Ind → Ind → Ind
  mutation : Ind → Ind
  evalF : Vec → Vec
  explParentPerm : ℕ → List ℕ
  explChoicePerm : ℕ → List ℕ → List ℕ
  npcLoopPerm : ℕ → List ℕ
  npcOffspring : ℕ → Pop → Ind
  maintainPerm : ℕ → List ℕ
  dedupe : Pop → Pop

/-- `BCEMOEAD.__init__`, lines 296-313: store the reference directions,
set the capacity to their number, clamp `n_neighbors`, precompute the
neighbour table, and start with empty populations. -/
def mkState (sqrt : ℚ → ℚ) (ref_dirs : List Vec) (n_neighbors : ℕ) :
    AlgState where
  ref_dirs := ref_dirs
  pc_capacity := ref_dirs.length
  n_neighbors := min ref_dirs.length n_neighbors
  neighbors := neighborsOf sqrt ref_dirs n_neighbors
  pc_pop := []
  npc_pop := []
  pop := []
  ideal := []

/-- `BCEMOEAD._advance`, lines 339-500: normalise both populations by the
PC statistics; build the masked PC distance matrix; radius 0 for a
singleton PC, otherwise the niche radius (whose IndexError propagates as
`none`); exploration radius `r = pc_size / pc_capacity * radius`; count
the NPC members within `r` of each PC member and collect the promising
indices (count ≤ 1); for each promising index build the offspring
(`exploreOffspring`), insert it into PC, lower the ideal point, and run the
global NPC update; then for each NPC index in a random order let the
external mating pipeline produce an evaluated offspring from the current
NPC population, insert it into PC, lower the ideal point and run the local
bounded replacement; finally run the merge/deduplicate/truncate/publish
phase.  Only `pc_pop`, `npc_pop`, `pop` and `ideal` are written. -/
def advance (o : Oracles) (s : AlgState) : Option AlgState :=
  let norm := normalize_bothpop s.pc_pop s.npc_pop
  let PCObj := norm.1.map (·.F)
  let NPCObj := norm.2.map (·.F)
  let pc_size := PCObj.length
  let d := maskZeroInf (cdist o.sqrt PCObj PCObj)
  let radius? := if pc_size = 1 then some 0
    else determine_radius d pc_size s.pc_capacity
  match radius? with
  | none => none
  | some radius =>
    let r := (pc_size : ℚ) / (s.pc_capacity : ℚ) * radius
    let d2 := cdist o.sqrt PCObj NPCObj
    let count := d2.map fun row => (row.filter fun x => decide (x ≤ r)).length
    let promising_index := (List.range pc_size).filter fun i =>
      decide (count.getD i 0 ≤ 1)
    let st1 := promising_index.enum.foldl
      (fun (st : Pop × Vec × Pop) ip =>
        let off := exploreOffspring o.crossover o.mutation o.evalF norm.1
          pc_size ip.2 (o.explParentPerm ip.1)
        let pcS := update_PCpop st.1 off
        let ideal2 := updateIdeal st.2.1 off.F
        let npcS := update_NPCpop o.decomp (o.explChoicePerm ip.1) st.2.2
          off ideal2 s.ref_dirs
        (pcS, ideal2, npcS))
      (s.pc_pop, s.ideal, s.npc_pop)
    let order := o.npcLoopPerm st1.2.2.length
    let st2 := order.foldl
      (fun (st : Pop × Vec × Pop) i =>
        let off := o.npcOffspring i st.2.2
        let pcS := update_PCpop st.1 off
        let ideal2 := updateIdeal st.2.1 off.F
        let npcS := _replace o.decomp s.neighbors s.ref_dirs ideal2 st.2.2
          i off
        (pcS, ideal2, npcS))
      st1
    match endOfGen o.sqrt o.maintainPerm o.dedupe st2.1 st2.2.2 s.pop
        s.pc_capacity with
    | none => none
    | some pp =>
      some { s with
        pc_pop := pp.1
        npc_pop := st2.2.2
        pop := pp.2
        ideal := st2.2.1 }

theorem cdist_length (sqrt : ℚ → ℚ) (A B : List Vec) :
    (cdist sqrt A B).length = A.length := by
  simp [cdist]

/-! ## C10 -/

/-- C10 counterexample.  The claim states that `N(i)` consists of the
nearest weight vectors *among the other weight vectors — excluding `i`
itself*.  With two distinct one-dimensional weight vectors and
`n_neighbors = 2`, the argsort of row 0 of the distance matrix starts with
index 0 itself (its self-distance 0 is the smallest entry), so
`N(0) = [0, 1]` contains 0.  `sqrt` is only evaluated at the squared
distances 0 and 1, where the identity agrees with the real square root. -/
theorem C10_counterexample :
    (neighborsOf (fun q => q) [[0], [1]] 2).getD 0 [] = [0, 1] ∧
    0 ∈ (neighborsOf (fun q => q) [[0], [1]] 2).getD 0 [] := by
  have heval : (neighborsOf (fun q => q) [[0], [1]] 2).getD 0 [] =
      [0, 1] := by
    simp [neighborsOf, cdist, sqdist, argsortQ, List.insertionSort,
      List.orderedInsert, List.range_succ]
  exact ⟨heval, by rw [heval]; exact List.mem_cons_self 0 [1]⟩

/-- C10 amended: the neighbour table is computed once at construction as
the first `min(n_neighbors, C)` indices of the argsort of each
distance-matrix row; for pairwise-distinct weight vectors `N(i)` therefore
*includes* `i` itself (the self-distance 0 is strictly smallest), has
exactly `min(n_neighbors, C)` entries, and no generation step ever changes
the table. -/
theorem C10_neighbors (sqrt : ℚ → ℚ) (ref_dirs : List Vec)
    (n_neighbors m i : ℕ)
    (hsq0 : sqrt 0 = 0) (hsqpos : ∀ q, 0 < q → 0 < sqrt q)
    (hrect : ∀ w ∈ ref_dirs, w.length = m) (hnodup : ref_dirs.Nodup)
    (hi : i < ref_dirs.length) (hnn : 1 ≤ n_neighbors) :
    (mkState sqrt ref_dirs n_neighbors).neighbors =
      neighborsOf sqrt ref_dirs n_neighbors ∧
    ((neighborsOf sqrt ref_dirs n_neighbors).getD i []).length =
      min ref_dirs.length n_neighbors ∧
    i ∈ (neighborsOf sqrt ref_dirs n_neighbors).getD i [] ∧
    (∀ (o : Oracles) (s s' : AlgState), advance o s = some s' →
      s'.neighbors = s.neighbors) := by
  have hrow : (cdist sqrt ref_dirs ref_dirs).getD i [] =
      ref_dirs.map fun b => sqrt (sqdist (ref_dirs.getD i []) b) := by
    rw [cdist]
    exact getD_map_of_lt _ ref_dirs i hi [] []
  have hrowlen : ((cdist sqrt ref_dirs ref_dirs).getD i []).length =
      ref_dirs.length := by
    rw [hrow, List.length_map]
  have hgetrow : ∀ j, j < ref_dirs.length →
      ((cdist sqrt ref_dirs ref_dirs).getD i []).getD j 0 =
        sqrt (sqdist (ref_dirs.getD i []) (ref_dirs.getD j [])) := by
    intro j hj
    rw [hrow]
    exact getD_map_of_lt _ ref_dirs j hj 0 []
  have hNi : (neighborsOf sqrt ref_dirs n_neighbors).getD i [] =
      (argsortQ ((cdist sqrt ref_dirs ref_dirs).getD i [])).take
        (min ref_dirs.length n_neighbors) := by
    rw [neighborsOf]
    exact getD_map_of_lt _ (cdist sqrt ref_dirs ref_dirs) i
      (by rw [cdist_length]; exact hi) [] []
  have hargsortlen :
      (argsortQ ((cdist sqrt ref_dirs ref_dirs).getD i [])).length =
        ((cdist sqrt ref_dirs ref_dirs).getD i []).length := by
    rw [argsortQ, (List.perm_insertionSort _ _).length_eq,
      List.length_range]
  have hmem_i : ref_dirs.getD i [] ∈ ref_dirs := by
    rw [List.getD_eq_getElem ref_dirs [] hi]
    exact List.getElem_mem hi
  have hminrow : ∀ j, j < ((cdist sqrt ref_dirs ref_dirs).getD i []).length →
      j ≠ i →
      ((cdist sqrt ref_dirs ref_dirs).getD i []).getD i 0 <
        ((cdist sqrt ref_dirs ref_dirs).getD i []).getD j 0 := by
    intro j hj hne
    rw [hrowlen] at hj
    rw [hgetrow i hi, hgetrow j hj, sqdist_self, hsq0]
    apply hsqpos
    apply sqdist_pos
    · intro hcontra
      rw [List.getD_eq_getElem ref_dirs [] hi,
        List.getD_eq_getElem ref_dirs [] hj] at hcontra
      exact hne ((List.Nodup.getElem_inj_iff hnodup).mp hcontra).symm
    · have hmem_j : ref_dirs.getD j [] ∈ ref_dirs := by
        rw [List.getD_eq_getElem ref_dirs [] hj]
        exact List.getElem_mem hj
      rw [hrect _ hmem_i, hrect _ hmem_j]
  obtain ⟨t, hL⟩ := argsortQ_head ((cdist sqrt ref_dirs ref_dirs).getD i [])
    i (by rw [hrowlen]; exact hi) hminrow
  refine ⟨rfl, ?_, ?_, ?_⟩
  · rw [hNi, List.length_take, hargsortlen, hrowlen]
    omega
  · rw [hNi, hL]
    cases hm : min ref_dirs.length n_neighbors with
    | zero => omega
    | succ n' =>
      rw [List.take_succ_cons]
      exact List.mem_cons_self _ _
  · intro o s s' h
    simp only [advance] at h
    split at h
    · exact Option.noConfusion h
    · split at h
      · exact Option.noConfusion h
      · rename_i pp heq
        cases h
        rfl

/-- Witness for `C10_neighbors` at two distinct one-dimensional weight
vectors with `n_neighbors = 1`: the neighbour set of subproblem 0 has
`min 2 1 = 1` entry and contains 0 itself. -/
theorem C10_witness :
    ((neighborsOf (fun q => q) [[0], [1]] 1).getD 0 []).length =
      min 2 1 ∧
    0 ∈ (neighborsOf (fun q => q) [[0], [1]] 1).getD 0 [] := by
  have h := C10_neighbors (fun q => q) [[0], [1]] 1 1 0 rfl
    (fun q hq => hq) (by decide) (by decide) (by norm_num) (by norm_num)
  exact ⟨h.2.1, h.2.2.1⟩

end BCE
